import Mathlib

/-!
Shallow embedding of the `no-cycle` rule of `eslint-plugin-import-x`
(`src/rules/no-cycle.ts`) and verification of its specification claims.

The rule checks, for each import-like declaration of the linted file, whether
following the resolved module graph leads back to the linted file.  The
embedding models:
  * module nodes (`ExportMap`s) with their outgoing import edges and
    declaration metadata (source specifier with line, `dynamic` flag,
    `isOnlyImportingTypes` flag);
  * the option surface (`maxDepth`, `ignoreExternal`,
    `allowUnsafeDynamicCyclicDependency`);
  * the per-declaration entry point `checkSourceValue` with its guard chain
    (external, dynamic-import escape, type-only, unresolved, self-import,
    SCC filter) and the FIFO breadth-first traversal `detectCycle` over the
    shared `traversed` set.

Stateful parts (the module-level `traversed` set and the `untraversed` queue)
are passed explicitly; the BFS loop is driven by a fuel argument that the top
level instantiates with a bound that provably dominates the loop's step count.
-/

namespace NoCycle

/-- Source specifier of a declaration: literal value plus the line of its
source location (`source.value`, `source.loc.start.line`). -/
structure Source where
  value : String
  line : Nat
deriving DecidableEq, Repr

/-- Declaration metadata carried on an import edge: the source specifier, the
`dynamic` flag (dynamic `import()`/`require`) and the `isOnlyImportingTypes`
flag. -/
structure Declaration where
  source : Source
  dynamic : Bool
  isOnlyImportingTypes : Bool
deriving DecidableEq, Repr

/-- One entry of a module's `imports` map: the resolved target path (the map
key, whose getter resolves that path) and the ordered declaration records. -/
structure ImportEdge where
  path : String
  declarations : List Declaration
deriving DecidableEq, Repr

/-- A resolved module node (`ExportMap`): canonical path and its ordered
outgoing edges. -/
structure Module where
  path : String
  imports : List ImportEdge
deriving DecidableEq, Repr

/-- The module graph arena: every module node the analysis can resolve. -/
structure Graph where
  modules : List Module
deriving DecidableEq, Repr

/-- Resolving a canonical path to its module node (a getter returning the
cached `ExportMap`, or null when the path has no node). -/
def Graph.find (g : Graph) (p : String) : Option Module :=
  g.modules.find? fun m => m.path = p

/-- An import specifier of an `ImportDeclaration`; `importKind` is `none` when
the specifier carries no `importKind` field. -/
structure Specifier where
  importKind : Option String
deriving DecidableEq, Repr

/-- The AST node kinds `checkSourceValue` receives as `importer`. -/
inductive Importer where
  | importDeclaration (importKind : Option String) (specifiers : List Specifier)
  | importExpression
  | callExpression (calleeName : Option String)
deriving DecidableEq, Repr

/-- Rule options.  `maxDepth = none` models the unbounded default
(`Number.POSITIVE_INFINITY`). -/
structure Options where
  maxDepth : Option Nat
  ignoreExternal : Bool
  allowUnsafeDynamicCyclicDependency : Bool
deriving DecidableEq, Repr

/-- The analysis context: linted file name, module graph, specifier
resolution, the external-module classifier, the optional SCC mapping
(canonical path to component id, `none` on a missing key) and the options. -/
structure Ctx where
  filename : String
  graph : Graph
  resolveTo : String → Option String
  isExternal : String → Bool
  scc : Option (String → Option Nat)
  opts : Options

/-- A frontier item of the BFS (`Traverser`): the path its getter resolves
and the route of declaration sources traversed so far. -/
structure Traverser where
  target : String
  route : List Source
deriving DecidableEq, Repr

/-- The `n < maxDepth` comparison; every finite number is below
`POSITIVE_INFINITY`. -/
def depthLt (n : Nat) (maxDepth : Option Nat) : Bool :=
  match maxDepth with
  | none => true
  | some d => n < d

/-- The `ignoreModule` predicate: with `ignoreExternal` set it consults the
external-module classifier, otherwise it is constantly false. -/
def ignoreModule (ctx : Ctx) (name : String) : Bool :=
  ctx.opts.ignoreExternal && ctx.isExternal name

/-- The `toTraverse` filter of `detectCycle`: qualifying declarations of an
edge, i.e. those neither external-ignored nor importing only types. -/
def toTraverse (ctx : Ctx) (decls : List Declaration) : List Declaration :=
  decls.filter fun d => !ignoreModule ctx d.source.value && !d.isOnlyImportingTypes

/-- `ExportMap.get`: resolve the specifier to a canonical path and fetch its
module node; `none` models the null result for unresolved modules. -/
def exportMapGet (ctx : Ctx) (v : String) : Option Module :=
  match ctx.resolveTo v with
  | none => none
  | some p => ctx.graph.find p

/-- The dynamic-import escape guard on the triggering declaration: with
`allowUnsafeDynamicCyclicDependency` set, skip an `ImportExpression`, and skip
a `CallExpression` whose callee has a name other than `require`. -/
def dynamicImportSkipped (opts : Options) (importer : Importer) : Bool :=
  opts.allowUnsafeDynamicCyclicDependency &&
    (match importer with
     | .importExpression => true
     | .callExpression calleeName =>
         match calleeName with
         | some n => n ≠ "require"
         | none => false
     | _ => false)

/-- The type-only guard on the triggering declaration: an `ImportDeclaration`
whose own `importKind` is `type`, or all of whose specifiers have
`importKind` `type`. -/
def typeOnlyImportSkipped (importer : Importer) : Bool :=
  match importer with
  | .importDeclaration importKind specifiers =>
      importKind = some "type" ||
        specifiers.all fun s => s.importKind = some "type"
  | _ => false

/-- The edge loop of `detectCycle`: scan a node's outgoing edges in order,
skipping edges to already-traversed paths, filtering each edge's declarations
through `toTraverse`, abandoning the whole node on a dynamic escape, reporting
a confirmed cycle on an edge back to the linted file, and otherwise enqueuing
one frontier item per qualifying declaration while below `maxDepth`.  Returns
whether a cycle was confirmed, together with the queue items pushed so far. -/
def processEdges (ctx : Ctx) (route : List Source) (trav : List String) :
    List ImportEdge → List Traverser → Bool × List Traverser
  | [], acc => (false, acc)
  | e :: rest, acc =>
    if e.path ∈ trav then
      processEdges ctx route trav rest acc
    else
      let tt := toTraverse ctx e.declarations
      if ctx.opts.allowUnsafeDynamicCyclicDependency && tt.any (fun d => d.dynamic) then
        (false, acc)
      else if e.path = ctx.filename ∧ 0 < tt.length then
        (true, acc)
      else
        processEdges ctx route trav rest
          (if depthLt (route.length + 1) ctx.opts.maxDepth then
            acc ++ tt.map (fun d => { target := e.path, route := route ++ [d.source] })
          else acc)

/-- One `detectCycle` call on a popped frontier item: resolve the getter,
abandon on null or already-traversed, otherwise mark the path traversed and
scan the node's edges.  Returns the confirmation flag, the updated traversed
set and the items pushed onto the queue. -/
def detectCycle (ctx : Ctx) (t : Traverser) (trav : List String) :
    Bool × List String × List Traverser :=
  match ctx.graph.find t.target with
  | none => (false, trav, [])
  | some m =>
    if m.path ∈ trav then (false, trav, [])
    else
      let trav' := m.path :: trav
      let res := processEdges ctx t.route trav' m.imports []
      (res.1, trav', res.2)

/-- The `while (untraversed.length > 0)` loop: shift the front of the queue
(FIFO), run `detectCycle`, and on confirmation report the popped item's
route.  The fuel argument bounds the number of iterations; the caller supplies
a sufficient amount. -/
def bfsLoop (ctx : Ctx) : Nat → List Traverser → List String →
    Option (List Source) × List String
  | 0, _, trav => (none, trav)
  | _ + 1, [], trav => (none, trav)
  | fuel + 1, next :: rest, trav =>
    let res := detectCycle ctx next trav
    if res.1 then (some next.route, res.2.1)
    else bfsLoop ctx fuel (rest ++ res.2.2) res.2.1

/-- Total number of declaration records in the graph; one node expansion can
push at most this many frontier items. -/
def totalDecls (ctx : Ctx) : Nat :=
  (ctx.graph.modules.map fun m =>
    (m.imports.map fun e => e.declarations.length).sum).sum

/-- Number of graph paths not yet traversed. -/
def unvisitedCount (ctx : Ctx) (trav : List String) : Nat :=
  ((ctx.graph.modules.map Module.path).filter fun p => ¬ p ∈ trav).length

/-- Fuel bound for `bfsLoop`: strictly decreases at every loop iteration, so
starting the loop with this much fuel never exhausts it. -/
def potential (ctx : Ctx) (queue : List Traverser) (trav : List String) : Nat :=
  queue.length + unvisitedCount ctx trav * (1 + totalDecls ctx)

/-- Steps 5-7 of the algorithm once the specifier resolved to a module node:
self-import check, SCC filter, then the breadth-first search seeded with the
resolved node and an empty route. -/
def checkResolved (ctx : Ctx) (imported : Module) (trav : List String) :
    Option (List Source) × List String :=
  if imported.path = ctx.filename then (none, trav)
  else
    match ctx.scc with
    | some sccMap =>
      if sccMap ctx.filename = sccMap imported.path then
        bfsLoop ctx (potential ctx [{ target := imported.path, route := [] }] trav)
          [{ target := imported.path, route := [] }] trav
      else (none, trav)
    | none =>
      bfsLoop ctx (potential ctx [{ target := imported.path, route := [] }] trav)
        [{ target := imported.path, route := [] }] trav

/-- The `checkSourceValue` callback, invoked once per import-like declaration:
the guard chain (external module, dynamic-import escape, type-only
declaration, unresolved module) followed by `checkResolved`.  Returns the
reported route (if a cycle was confirmed) and the updated traversed set. -/
def checkSourceValue (ctx : Ctx) (sourceValue : String) (importer : Importer)
    (trav : List String) : Option (List Source) × List String :=
  if ignoreModule ctx sourceValue then (none, trav)
  else if dynamicImportSkipped ctx.opts importer then (none, trav)
  else if typeOnlyImportSkipped importer then (none, trav)
  else
    match exportMapGet ctx sourceValue with
    | none => (none, trav)
    | some imported => checkResolved ctx imported trav

/-- The `routeString` helper: `value:line` entries joined by the arrow. -/
def routeString (route : List Source) : String :=
  String.intercalate "=>" (route.map fun s => s.value ++ ":" ++ toString s.line)

/-- The rendered diagnostic message: the `cycle` template with either the
via-route or the fixed zero-hop marker. -/
def cycleMessage (route : List Source) : String :=
  "Dependency cycle " ++ (if route.length > 0 then "via " ++ routeString route else "detected.")

/-- Rendered message of a check, when it reported. -/
def checkMessage (ctx : Ctx) (sourceValue : String) (importer : Importer)
    (trav : List String) : Option String :=
  ((checkSourceValue ctx sourceValue importer trav).1).map cycleMessage

/-- Sequence of checks within one file, threading the traversed set. -/
def runChecks (ctx : Ctx) : List (String × Importer) → List String →
    List (Option (List Source)) × List String
  | [], trav => ([], trav)
  | (v, imp) :: rest, trav =>
    let res := checkSourceValue ctx v imp trav
    let tail := runChecks ctx rest res.2
    (res.1 :: tail.1, tail.2)

/-- Analysis of one file: run its checks and clear the traversed set on
`Program:exit`. -/
def analyzeFile (ctx : Ctx) (checks : List (String × Importer))
    (trav : List String) : List (Option (List Source)) × List String :=
  ((runChecks ctx checks trav).1, [])

/-! ### Qualifying paths and cycles

The specification speaks about *qualifying cycles*: routes through the module
graph each hop of which retains at least one declaration after the
external/type-only filter.  `qedge` is one such hop; `QReach` is a chain of
hops all of whose nodes avoid both the linted file and a given avoid-set
(matching what the traversal can actually walk); a qualifying cycle of `h`
hops is a chain of `h - 1` hops followed by a qualifying edge back to the
linted file. -/

/-- A qualifying edge from module path `p` to path `q`: `p` resolves to a
node owning an edge to `q` with a nonempty `toTraverse` filter result. -/
def qedge (ctx : Ctx) (p q : String) : Prop :=
  ∃ m, ctx.graph.find p = some m ∧
    ∃ e ∈ m.imports, e.path = q ∧ toTraverse ctx e.declarations ≠ []

/-- A chain of qualifying edges of given length whose nodes all differ from
the linted file and avoid `avoid`. -/
inductive QReach (ctx : Ctx) (avoid : List String) : String → Nat → String → Prop where
  | refl (p : String) (hfile : p ≠ ctx.filename) (havoid : p ∉ avoid) :
      QReach ctx avoid p 0 p
  | step (p q r : String) (k : Nat) (hfile : p ≠ ctx.filename) (havoid : p ∉ avoid)
      (hq : qedge ctx p q) (h : QReach ctx avoid q k r) :
      QReach ctx avoid p (k + 1) r

/-- A qualifying cycle of `hops` hops from `p0` back to the linted file:
`hops - 1` qualifying edges to some node followed by a qualifying edge to the
file. -/
def QCycle (ctx : Ctx) (avoid : List String) (p0 : String) (hops : Nat) : Prop :=
  ∃ k q, hops = k + 1 ∧ QReach ctx avoid p0 k q ∧ qedge ctx q ctx.filename

/-- `d` is the exact qualifying-path distance from `p0` to `p`. -/
def IsDist (ctx : Ctx) (avoid : List String) (p0 p : String) (d : Nat) : Prop :=
  QReach ctx avoid p0 d p ∧ ∀ d' < d, ¬ QReach ctx avoid p0 d' p

/-- Loop invariant of the breadth-first search started at `p0` with an empty
traversed set (the `allowUnsafeDynamicCyclicDependency` option off).  `queue`
and `trav` are the current frontier and traversed set.

* `validity`: every frontier item's route length is realized by a qualifying
  path from `p0` to its target.
* `sorted`/`spread`: FIFO discipline — route lengths are nondecreasing along
  the queue and differ by at most one across it.
* `noMissed`: no traversed node has a qualifying edge back to the linted file
  (otherwise its expansion would have confirmed a cycle).
* `notFile`/`fileNotTrav`: the linted file is never a frontier target and is
  never traversed.
* `depthBound`: every frontier route is empty or below `maxDepth`.
* `frontier`: every untraversed resolvable node at distance `d` within the
  depth gate either has a frontier item at exactly its distance, or the
  frontier still holds an item strictly below `d`.
* `closure`: every edge out of a traversed node was accounted for — its
  target is traversed or queued at a route length bounded by the source's
  distance plus one. -/
structure BfsInv (ctx : Ctx) (p0 : String) (queue : List Traverser)
    (trav : List String) : Prop where
  validity : ∀ t ∈ queue, QReach ctx [] p0 t.route.length t.target
  sorted : queue.Pairwise fun a b => a.route.length ≤ b.route.length
  spread : ∀ a ∈ queue, ∀ b ∈ queue, a.route.length ≤ b.route.length + 1
  noMissed : ∀ p ∈ trav, ¬ qedge ctx p ctx.filename
  notFile : ∀ t ∈ queue, t.target ≠ ctx.filename
  fileNotTrav : ctx.filename ∉ trav
  depthBound : ∀ t ∈ queue,
    t.route.length = 0 ∨ depthLt t.route.length ctx.opts.maxDepth = true
  frontier : ∀ p d, p ≠ ctx.filename → (∃ mp, ctx.graph.find p = some mp) →
    p ∉ trav → IsDist ctx [] p0 p d →
    (d = 0 ∨ depthLt d ctx.opts.maxDepth = true) →
    (∃ t ∈ queue, t.target = p ∧ t.route.length = d) ∨
    (∃ t ∈ queue, t.route.length < d)
  closure : ∀ p ∈ trav, ∀ dp, IsDist ctx [] p0 p dp → ∀ q, q ≠ ctx.filename →
    qedge ctx p q → (∃ mq, ctx.graph.find q = some mq) →
    depthLt (dp + 1) ctx.opts.maxDepth = true →
    q ∈ trav ∨ ∃ t ∈ queue, t.target = q ∧ t.route.length ≤ dp + 1

/-! ### Concrete scenario contexts -/

/-- A plain static import declaration with one value specifier. -/
def importerStatic : Importer := .importDeclaration none [{ importKind := none }]

/-- Default options: unbounded depth, no exclusions. -/
def defaultOpts : Options :=
  { maxDepth := none, ignoreExternal := false, allowUnsafeDynamicCyclicDependency := false }

/-- Options with a finite `maxDepth` and no exclusions. -/
def optsDepth (d : Nat) : Options :=
  { maxDepth := some d, ignoreExternal := false, allowUnsafeDynamicCyclicDependency := false }

/-- Resolver that maps the specifier `./b` to path `b`. -/
def resolveB : String → Option String := fun v => if v = "./b" then some "b" else none

/-- Scenario A graph: the linted file `a` imports `b`; module `b` has a
static edge to `a` at line 2. -/
def modAB_b : Module :=
  { path := "b",
    imports := [{ path := "a", declarations := [{ source := { value := "./a", line := 2 }, dynamic := false, isOnlyImportingTypes := false }] }] }

/-- Scenario A context, parameterized by options. -/
def ctxAB (opts : Options) : Ctx :=
  { filename := "a", graph := { modules := [modAB_b] }, resolveTo := resolveB,
    isExternal := fun _ => false, scc := none, opts := opts }

/-- Scenario B graph: `a` imports `b`, `b` imports `c` (line 1), `c` imports
`a` (line 1). -/
def modTri_b : Module :=
  { path := "b",
    imports := [{ path := "c", declarations := [{ source := { value := "./c", line := 1 }, dynamic := false, isOnlyImportingTypes := false }] }] }

/-- Module `c` of the triangle graph. -/
def modTri_c : Module :=
  { path := "c",
    imports := [{ path := "a", declarations := [{ source := { value := "./a", line := 1 }, dynamic := false, isOnlyImportingTypes := false }] }] }

/-- Scenario B context, parameterized by options. -/
def ctxTri (opts : Options) : Ctx :=
  { filename := "a", graph := { modules := [modTri_b, modTri_c] }, resolveTo := resolveB,
    isExternal := fun _ => false, scc := none, opts := opts }

/-- Dynamic-escape graph used against the shortest-route claim: `b` imports
`c` and `e`; `c` first imports `g` dynamically and then `a` statically, so the
escape abandons `c` before its `a` edge is seen; the longer route through
`e` and `h` closes the cycle instead. -/
def modDyn_b : Module :=
  { path := "b",
    imports :=
      [{ path := "c", declarations := [{ source := { value := "./c", line := 1 }, dynamic := false, isOnlyImportingTypes := false }] },
       { path := "e", declarations := [{ source := { value := "./e", line := 2 }, dynamic := false, isOnlyImportingTypes := false }] }] }

/-- Module `c` of the dynamic-escape graph: dynamic edge first. -/
def modDyn_c : Module :=
  { path := "c",
    imports :=
      [{ path := "g", declarations := [{ source := { value := "./g", line := 1 }, dynamic := true, isOnlyImportingTypes := false }] },
       { path := "a", declarations := [{ source := { value := "./a", line := 2 }, dynamic := false, isOnlyImportingTypes := false }] }] }

/-- Module `e` of the dynamic-escape graph. -/
def modDyn_e : Module :=
  { path := "e",
    imports := [{ path := "h", declarations := [{ source := { value := "./h", line := 1 }, dynamic := false, isOnlyImportingTypes := false }] }] }

/-- Module `h` of the dynamic-escape graph. -/
def modDyn_h : Module :=
  { path := "h",
    imports := [{ path := "a", declarations := [{ source := { value := "./a", line := 1 }, dynamic := false, isOnlyImportingTypes := false }] }] }

/-- Dynamic-escape context: `allowUnsafeDynamicCyclicDependency` enabled,
unbounded depth. -/
def ctxDyn : Ctx :=
  { filename := "a", graph := { modules := [modDyn_b, modDyn_c, modDyn_e, modDyn_h] },
    resolveTo := resolveB, isExternal := fun _ => false, scc := none,
    opts := { maxDepth := none, ignoreExternal := false, allowUnsafeDynamicCyclicDependency := true } }

/-- Escape-at-depth graph: `b` first imports `g` dynamically, then `a`
statically; the escape abandons `b` before its `a` edge is seen, so the
one-hop cycle is never confirmed. -/
def modEsc_b : Module :=
  { path := "b",
    imports :=
      [{ path := "g", declarations := [{ source := { value := "./g", line := 1 }, dynamic := true, isOnlyImportingTypes := false }] },
       { path := "a", declarations := [{ source := { value := "./a", line := 3 }, dynamic := false, isOnlyImportingTypes := false }] }] }

/-- Escape-at-depth context with `maxDepth = 1` and the dynamic escape on. -/
def ctxEsc : Ctx :=
  { filename := "a", graph := { modules := [modEsc_b] }, resolveTo := resolveB,
    isExternal := fun _ => false, scc := none,
    opts := { maxDepth := some 1, ignoreExternal := false, allowUnsafeDynamicCyclicDependency := true } }

/-- Confirm-before-escape graph: `b` imports `a` statically on its first edge
and `g` dynamically on its second, so the cycle is confirmed through `b`
although `b` carries a qualifying dynamic declaration. -/
def modCfm_b : Module :=
  { path := "b",
    imports :=
      [{ path := "a", declarations := [{ source := { value := "./a", line := 1 }, dynamic := false, isOnlyImportingTypes := false }] },
       { path := "c", declarations := [{ source := { value := "./c", line := 2 }, dynamic := true, isOnlyImportingTypes := false }] }] }

/-- Confirm-before-escape context with the dynamic escape on. -/
def ctxCfm : Ctx :=
  { filename := "a", graph := { modules := [modCfm_b] }, resolveTo := resolveB,
    isExternal := fun _ => false, scc := none,
    opts := { maxDepth := none, ignoreExternal := false, allowUnsafeDynamicCyclicDependency := true } }

/-- An SCC mapping that puts `a` and `b` in different components. -/
def sccSplitMap : String → Option Nat :=
  fun p => if p = "a" then some 0 else if p = "b" then some 1 else none

/-- Scenario A context with an SCC mapping that separates `a` and `b`. -/
def ctxSccSplit : Ctx :=
  { filename := "a", graph := { modules := [modAB_b] }, resolveTo := resolveB,
    isExternal := fun _ => false, scc := some sccSplitMap, opts := defaultOpts }

/-! ### Basic path lemmas -/

theorem QReach.start_not_filename {ctx : Ctx} {avoid : List String} {p : String}
    {k : Nat} {r : String} (h : QReach ctx avoid p k r) : p ≠ ctx.filename := by
  cases h with
  | refl _ hfile _ => exact hfile
  | step _ _ _ _ hfile _ _ _ => exact hfile

theorem QReach.start_not_avoided {ctx : Ctx} {avoid : List String} {p : String}
    {k : Nat} {r : String} (h : QReach ctx avoid p k r) : p ∉ avoid := by
  cases h with
  | refl _ _ havoid => exact havoid
  | step _ _ _ _ _ havoid _ _ => exact havoid

theorem QReach.zero_eq {ctx : Ctx} {avoid : List String} {p r : String}
    (h : QReach ctx avoid p 0 r) : p = r := by
  cases h; rfl

theorem QReach.snoc {ctx : Ctx} {avoid : List String} {p q r : String} {k : Nat}
    (h : QReach ctx avoid p k q) (hq : qedge ctx q r) (hr : r ≠ ctx.filename)
    (ha : r ∉ avoid) : QReach ctx avoid p (k + 1) r := by
  induction h with
  | refl s hfile havoid => exact .step s r r 0 hfile havoid hq (.refl r hr ha)
  | step s t u k hfile havoid he _ ih => exact .step s t r (k + 1) hfile havoid he (ih hq)

theorem QReach.unsnoc {ctx : Ctx} {avoid : List String} {p r : String} {k : Nat}
    (h : QReach ctx avoid p (k + 1) r) :
    ∃ q, QReach ctx avoid p k q ∧ qedge ctx q r := by
  induction k generalizing p with
  | zero =>
    cases h with
    | step p q r k hfile havoid hq htail =>
      exact ⟨p, .refl p hfile havoid, htail.zero_eq ▸ hq⟩
  | succ n ih =>
    cases h with
    | step p q r k hfile havoid hq htail =>
      obtain ⟨s, hs, he⟩ := ih htail
      exact ⟨s, .step p q s n hfile havoid hq hs, he⟩

theorem qedge_resolvable {ctx : Ctx} {p q : String} (h : qedge ctx p q) :
    ∃ m, ctx.graph.find p = some m := by
  obtain ⟨m, hm, _⟩ := h
  exact ⟨m, hm⟩

/-! ### Claim theorems: guard chain -/

/-- C1: for every checked import declaration, if the SCC mapping is available
and assigns the originating file's canonical path and the resolved target's
canonical path to different component ids, the cycle detector reports no
diagnostic for that declaration: `checkSourceValue` stops before the BFS, so
no cycle is confirmed and the traversed set is untouched. -/
theorem c1_scc_filter_sound (ctx : Ctx) (v : String) (importer : Importer)
    (trav : List String) (sccMap : String → Option Nat) (m : Module) (i j : Nat)
    (hscc : ctx.scc = some sccMap) (hres : exportMapGet ctx v = some m)
    (hfi : sccMap ctx.filename = some i) (hmj : sccMap m.path = some j)
    (hij : i ≠ j) :
    checkSourceValue ctx v importer trav = (none, trav) := by
  have hdiff : ¬ sccMap ctx.filename = sccMap m.path := by
    rw [hfi, hmj]
    exact fun h => hij (Option.some.inj h)
  unfold checkSourceValue
  split
  · rfl
  · split
    · rfl
    · split
      · rfl
      · rw [hres]
        show checkResolved ctx m trav = (none, trav)
        unfold checkResolved
        split
        · rfl
        · rw [hscc]
          show (if sccMap ctx.filename = sccMap m.path then _ else (none, trav)) = (none, trav)
          rw [if_neg hdiff]

theorem c1_witness :
    ctxSccSplit.scc = some sccSplitMap ∧
    exportMapGet ctxSccSplit "./b" = some modAB_b ∧
    sccSplitMap ctxSccSplit.filename = some 0 ∧
    sccSplitMap modAB_b.path = some 1 ∧
    (0 : Nat) ≠ 1 ∧
    checkSourceValue ctxSccSplit "./b" importerStatic ["z"] = (none, ["z"]) :=
  ⟨rfl, rfl, rfl, rfl, by decide,
    c1_scc_filter_sound ctxSccSplit "./b" importerStatic ["z"] sccSplitMap modAB_b 0 1
      rfl rfl rfl rfl (by decide)⟩

/-- C7: a declaration importing only type-level bindings never contributes an
edge, under every configuration: an `ImportDeclaration` that is type-only
(itself, or through all of its specifiers) is skipped as a triggering
declaration, and declarations with `isOnlyImportingTypes` are filtered out of
every edge's qualifying declarations by `toTraverse` during the BFS. -/
theorem c7_type_only_never_contributes :
    (∀ (ctx : Ctx) (v : String) (trav : List String) (importKind : Option String)
        (specifiers : List Specifier),
        (importKind = some "type" ∨
          specifiers.all (fun s => s.importKind = some "type") = true) →
        checkSourceValue ctx v (.importDeclaration importKind specifiers) trav =
          (none, trav)) ∧
    (∀ (ctx : Ctx) (decls : List Declaration) (d : Declaration),
        d ∈ toTraverse ctx decls → d.isOnlyImportingTypes = false) := by
  constructor
  · intro ctx v trav importKind specifiers h
    have h3 : typeOnlyImportSkipped (.importDeclaration importKind specifiers) = true := by
      simp only [typeOnlyImportSkipped, Bool.or_eq_true, decide_eq_true_eq]
      cases h with
      | inl h => exact Or.inl h
      | inr h =>
        refine Or.inr ?_
        simpa using h
    simp [checkSourceValue, h3]
  · intro ctx decls d hd
    have := List.of_mem_filter hd
    simp only [Bool.and_eq_true, Bool.not_eq_true'] at this
    exact this.2

theorem c7_witness :
    checkSourceValue (ctxAB defaultOpts) "./b"
        (.importDeclaration (some "type") [{ importKind := none }]) [] = (none, []) ∧
    (∀ d ∈ toTraverse (ctxAB defaultOpts)
        [{ source := { value := "./a", line := 2 }, dynamic := false, isOnlyImportingTypes := true }],
      d.isOnlyImportingTypes = false) := by
  constructor
  · exact c7_type_only_never_contributes.1 _ _ _ _ _ (Or.inl rfl)
  · intro d hd
    exact c7_type_only_never_contributes.2 _ _ d hd

/-- C8: with `allowUnsafeDynamicCyclicDependency` enabled, the
triggering-declaration skip applies to a dynamic `ImportExpression` but never
to a `require()` call: a `CallExpression` whose callee is named `require` is
checked exactly like a plain static import declaration. -/
theorem c8_require_still_checked :
    (∀ (ctx : Ctx) (v : String) (trav : List String),
        ctx.opts.allowUnsafeDynamicCyclicDependency = true →
        checkSourceValue ctx v .importExpression trav = (none, trav)) ∧
    (∀ (ctx : Ctx) (v : String) (trav : List String),
        checkSourceValue ctx v (.callExpression (some "require")) trav =
          checkSourceValue ctx v importerStatic trav) := by
  constructor
  · intro ctx v trav hallow
    have h2 : dynamicImportSkipped ctx.opts .importExpression = true := by
      simp [dynamicImportSkipped, hallow]
    simp [checkSourceValue, h2]
  · intro ctx v trav
    have h2 : dynamicImportSkipped ctx.opts (.callExpression (some "require")) = false := by
      simp [dynamicImportSkipped]
    have h2' : dynamicImportSkipped ctx.opts importerStatic = false := by
      simp [dynamicImportSkipped, importerStatic]
    have h3 : typeOnlyImportSkipped (.callExpression (some "require")) = false := by
      simp [typeOnlyImportSkipped]
    have h3' : typeOnlyImportSkipped importerStatic = false := by
      simp [typeOnlyImportSkipped, importerStatic]
    simp only [checkSourceValue, h2, h2', h3, h3', Bool.false_eq_true, if_false]

theorem c8_witness :
    checkSourceValue ctxCfm "./x" .importExpression ["y"] = (none, ["y"]) ∧
    checkSourceValue ctxCfm "./b" (.callExpression (some "require")) [] =
      checkSourceValue ctxCfm "./b" importerStatic [] :=
  ⟨c8_require_still_checked.1 ctxCfm "./x" ["y"] rfl,
    c8_require_still_checked.2 ctxCfm "./b" []⟩

/-- C10: an import declaration with zero specifiers (a bare side-effect
one) satisfies the type-only test vacuously — `every` over an empty
specifier list — and is therefore skipped as a triggering declaration under
every configuration: it never starts a cycle check. -/
theorem c10_bare_import_skipped (ctx : Ctx) (v : String) (importKind : Option String)
    (trav : List String) :
    checkSourceValue ctx v (.importDeclaration importKind []) trav = (none, trav) := by
  have h3 : typeOnlyImportSkipped (.importDeclaration importKind []) = true := by
    simp [typeOnlyImportSkipped]
  simp [checkSourceValue, h3]

/-! ### Claim theorems: concrete scenarios A and B -/

/-- C5 counterexample: in the two-module cycle `a ↔ b` the report produced at
`a`'s import of `b` carries an empty route, so its message is the fixed
zero-hop marker `Dependency cycle detected.` — not a rendering of the form
`via b:<line>` as the claim states. -/
theorem c5_counterexample :
    checkMessage (ctxAB defaultOpts) "./b" importerStatic [] =
      some "Dependency cycle detected." ∧
    checkMessage (ctxAB defaultOpts) "./b" importerStatic [] ≠
      some "Dependency cycle via b:2" ∧
    checkMessage (ctxAB defaultOpts) "./b" importerStatic [] ≠
      some "Dependency cycle via ./a:2" := by
  refine ⟨rfl, ?_, ?_⟩ <;> decide

/-- C5 amended: in the concrete graph where `a` imports `b` and `b` imports
`a` (plain static imports, no exclusions), checking `a`'s import of `b`
reports a cycle diagnostic at that declaration with an empty route, rendered
as the fixed marker `Dependency cycle detected.` (the confirming edge is the
very first hop, so no `via` chain is produced). -/
theorem c5_amended :
    (checkSourceValue (ctxAB defaultOpts) "./b" importerStatic []).1 = some [] ∧
    checkMessage (ctxAB defaultOpts) "./b" importerStatic [] =
      some "Dependency cycle detected." := ⟨rfl, rfl⟩

/-- C4 counterexample: in the triangle `a → b → c → a` with `maxDepth = 2`,
checking `a`'s import of `b` does produce a report — and its route has one
entry, not two — contradicting the claim that `maxDepth = 2` yields no
report. -/
theorem c4_counterexample :
    (checkSourceValue (ctxTri (optsDepth 2)) "./b" importerStatic []).1 =
      some [{ value := "./c", line := 1 }] := rfl

/-- C4 amended: in the triangle `a → b → c → a`, checking `a`'s import of `b`
with `maxDepth = 2` or `maxDepth = 3` reports a cycle whose rendered route
has exactly one entry (`via ./c:1`); `maxDepth = 1` produces no report. -/
theorem c4_amended :
    (checkSourceValue (ctxTri (optsDepth 2)) "./b" importerStatic []).1 =
      some [{ value := "./c", line := 1 }] ∧
    (checkSourceValue (ctxTri (optsDepth 3)) "./b" importerStatic []).1 =
      some [{ value := "./c", line := 1 }] ∧
    checkMessage (ctxTri (optsDepth 2)) "./b" importerStatic [] =
      some "Dependency cycle via ./c:1" ∧
    (checkSourceValue (ctxTri (optsDepth 1)) "./b" importerStatic []).1 =
      none := ⟨rfl, rfl, rfl, rfl⟩

/-! ### Claim theorems: dynamic escape -/

/-- C6 counterexample: with `allowUnsafeDynamicCyclicDependency = true`, the
node `b` carries a qualifying dynamic declaration on its second edge, yet the
BFS confirms a cycle through `b` via its first edge (which points back at the
linted file and is scanned before the dynamic edge is seen). -/
theorem c6_counterexample :
    (checkSourceValue ctxCfm "./b" importerStatic []).1 = some [] ∧
    (∃ e ∈ modCfm_b.imports,
      (toTraverse ctxCfm e.declarations).any (fun d => d.dynamic) = true) := by
  refine ⟨rfl, ?_⟩
  decide

/-- C6 amended: with `allowUnsafeDynamicCyclicDependency = true`, a node's
edge scan stops at the first edge (to an untraversed target) whose qualifying
declarations include a dynamic declaration: the edges after it are never
examined, so they can neither confirm a cycle nor enqueue anything — but
edges scanned before the dynamic one have already been processed and may
confirm a cycle or enqueue frontier items. -/
theorem c6_amended (ctx : Ctx) (route : List Source) (trav : List String)
    (acc : List Traverser) (es₁ es₂ : List ImportEdge) (e : ImportEdge)
    (hallow : ctx.opts.allowUnsafeDynamicCyclicDependency = true)
    (hnotrav : e.path ∉ trav)
    (hdyn : (toTraverse ctx e.declarations).any (fun d => d.dynamic) = true) :
    processEdges ctx route trav (es₁ ++ e :: es₂) acc =
      processEdges ctx route trav (es₁ ++ [e]) acc := by
  induction es₁ generalizing acc with
  | nil =>
    simp only [List.nil_append, processEdges]
    rw [if_neg hnotrav, if_neg hnotrav]
    simp only [hallow, hdyn, Bool.true_and, if_pos]
  | cons e₁ tl ih =>
    simp only [List.cons_append, processEdges]
    split
    · exact ih acc
    · split
      · rfl
      · split
        · rfl
        · exact ih _

theorem c6_amended_witness :
    ctxCfm.opts.allowUnsafeDynamicCyclicDependency = true ∧
    ("c" : String) ∉ (["b"] : List String) ∧
    (toTraverse ctxCfm
        [{ source := { value := "./c", line := 2 }, dynamic := true, isOnlyImportingTypes := false }]).any
        (fun d => d.dynamic) = true ∧
    processEdges ctxCfm [] ["b"]
        ([{ path := "a", declarations := [{ source := { value := "./a", line := 1 }, dynamic := false, isOnlyImportingTypes := false }] }] ++
          { path := "c", declarations := [{ source := { value := "./c", line := 2 }, dynamic := true, isOnlyImportingTypes := false }] } ::
          [{ path := "x", declarations := [] }]) [] =
      processEdges ctxCfm [] ["b"]
        ([{ path := "a", declarations := [{ source := { value := "./a", line := 1 }, dynamic := false, isOnlyImportingTypes := false }] }] ++
          [{ path := "c", declarations := [{ source := { value := "./c", line := 2 }, dynamic := true, isOnlyImportingTypes := false }] }]) [] := by
  refine ⟨rfl, by decide, by decide, ?_⟩
  exact c6_amended ctxCfm [] ["b"] [] _ _ _ rfl (by decide) (by decide)

end NoCycle

namespace NoCycle

theorem Graph.find_path {g : Graph} {p : String} {m : Module}
    (h : g.find p = some m) : m.path = p := by
  have := List.find?_some h
  simpa using this

theorem exportMapGet_find {ctx : Ctx} {v : String} {m : Module}
    (h : exportMapGet ctx v = some m) : ctx.graph.find m.path = some m := by
  unfold exportMapGet at h
  split at h
  · exact absurd h (by simp)
  · rw [Graph.find_path h]
    exact h

theorem QReach.end_not_filename {ctx : Ctx} {avoid : List String} {p r : String}
    {k : Nat} (h : QReach ctx avoid p k r) : r ≠ ctx.filename := by
  induction h with
  | refl _ hfile _ => exact hfile
  | step _ _ _ _ _ _ _ _ ih => exact ih

theorem QReach.end_not_avoided {ctx : Ctx} {avoid : List String} {p r : String}
    {k : Nat} (h : QReach ctx avoid p k r) : r ∉ avoid := by
  induction h with
  | refl _ _ havoid => exact havoid
  | step _ _ _ _ _ _ _ _ ih => exact ih

theorem depthLt_of_le {n k : Nat} {md : Option Nat} (hnk : n ≤ k)
    (h : depthLt k md = true) : depthLt n md = true := by
  unfold depthLt at *
  cases md with
  | none => rfl
  | some d =>
    simp only [decide_eq_true_eq] at *
    omega

theorem processEdges_out_mem {ctx : Ctx} {route : List Source} {trav : List String} :
    ∀ {es : List ImportEdge} {acc : List Traverser} {x : Traverser},
      x ∈ (processEdges ctx route trav es acc).2 →
      x ∈ acc ∨ ∃ e ∈ es, ∃ d ∈ toTraverse ctx e.declarations,
        x.target = e.path ∧ x.route = route ++ [d.source] ∧ e.path ∉ trav ∧
        e.path ≠ ctx.filename ∧ depthLt (route.length + 1) ctx.opts.maxDepth = true
  | [], acc, x => fun hx => Or.inl hx
  | e :: rest, acc, x => by
    intro hx
    rw [processEdges] at hx
    by_cases hmem : e.path ∈ trav
    · rw [if_pos hmem] at hx
      rcases processEdges_out_mem hx with h | ⟨e', he', rest'⟩
      · exact Or.inl h
      · exact Or.inr ⟨e', List.mem_cons_of_mem _ he', rest'⟩
    · rw [if_neg hmem] at hx
      by_cases hdyn : (ctx.opts.allowUnsafeDynamicCyclicDependency &&
          (toTraverse ctx e.declarations).any fun d => d.dynamic) = true
      · rw [if_pos hdyn] at hx
        exact Or.inl hx
      · rw [if_neg hdyn] at hx
        by_cases hcfm : e.path = ctx.filename ∧ 0 < (toTraverse ctx e.declarations).length
        · rw [if_pos hcfm] at hx
          exact Or.inl hx
        · rw [if_neg hcfm] at hx
          rcases processEdges_out_mem hx with h | ⟨e', he', rest'⟩
          · by_cases hgate : depthLt (route.length + 1) ctx.opts.maxDepth = true
            · rw [if_pos hgate] at h
              rcases List.mem_append.1 h with h | h
              · exact Or.inl h
              · obtain ⟨d, hd, hxd⟩ := List.mem_map.1 h
                refine Or.inr ⟨e, List.mem_cons_self _ _, d, hd, ?_, ?_, hmem, ?_, hgate⟩
                · rw [← hxd]
                · rw [← hxd]
                · intro hpath
                  exact hcfm ⟨hpath, by
                    cases h0 : toTraverse ctx e.declarations with
                    | nil => rw [h0] at hd; cases hd
                    | cons a tl => simp [h0]⟩
            · rw [if_neg hgate] at h
              exact Or.inl h
          · exact Or.inr ⟨e', List.mem_cons_of_mem _ he', rest'⟩

end NoCycle

namespace NoCycle

theorem processEdges_found {ctx : Ctx} {route : List Source} {trav : List String} :
    ∀ {es : List ImportEdge} {acc : List Traverser},
      (processEdges ctx route trav es acc).1 = true →
      ∃ e ∈ es, e.path ∉ trav ∧ e.path = ctx.filename ∧
        toTraverse ctx e.declarations ≠ []
  | [], acc => by
    intro h
    rw [processEdges] at h
    cases h
  | e :: rest, acc => by
    intro h
    rw [processEdges] at h
    by_cases hmem : e.path ∈ trav
    · rw [if_pos hmem] at h
      obtain ⟨e', he', h'⟩ := processEdges_found h
      exact ⟨e', List.mem_cons_of_mem _ he', h'⟩
    · rw [if_neg hmem] at h
      by_cases hdyn : (ctx.opts.allowUnsafeDynamicCyclicDependency &&
          (toTraverse ctx e.declarations).any fun d => d.dynamic) = true
      · rw [if_pos hdyn] at h
        cases h
      · rw [if_neg hdyn] at h
        by_cases hcfm : e.path = ctx.filename ∧ 0 < (toTraverse ctx e.declarations).length
        · refine ⟨e, List.mem_cons_self _ _, hmem, hcfm.1, ?_⟩
          have := hcfm.2
          intro h0
          rw [h0] at this
          cases this
        · rw [if_neg hcfm] at h
          obtain ⟨e', he', h'⟩ := processEdges_found h
          exact ⟨e', List.mem_cons_of_mem _ he', h'⟩

theorem processEdges_not_found {ctx : Ctx} {route : List Source} {trav : List String}
    (hallow : ctx.opts.allowUnsafeDynamicCyclicDependency = false) :
    ∀ {es : List ImportEdge} {acc : List Traverser},
      (processEdges ctx route trav es acc).1 = false →
      ∀ e ∈ es, e.path ∉ trav → ¬(e.path = ctx.filename ∧
        toTraverse ctx e.declarations ≠ [])
  | [], acc => by
    intro _ e he
    cases he
  | e :: rest, acc => by
    intro h e' he' hmem'
    rw [processEdges] at h
    by_cases hmem : e.path ∈ trav
    · rw [if_pos hmem] at h
      rcases List.mem_cons.1 he' with rfl | he'
      · exact absurd hmem hmem'
      · exact processEdges_not_found hallow h e' he' hmem'
    · rw [if_neg hmem] at h
      rw [hallow] at h
      simp only [Bool.false_and, Bool.false_eq_true, if_false] at h
      by_cases hcfm : e.path = ctx.filename ∧ 0 < (toTraverse ctx e.declarations).length
      · rw [if_pos hcfm] at h
        cases h
      · rw [if_neg hcfm] at h
        rcases List.mem_cons.1 he' with heq | he'
        · subst heq
          intro ⟨hp, htt⟩
          exact hcfm ⟨hp, by
            cases h0 : toTraverse ctx e'.declarations with
            | nil => exact absurd h0 htt
            | cons a tl => simp [h0]⟩
        · exact processEdges_not_found hallow h e' he' hmem'

theorem processEdges_acc_mem {ctx : Ctx} {route : List Source} {trav : List String} :
    ∀ {es : List ImportEdge} {acc : List Traverser} {x : Traverser},
      x ∈ acc → x ∈ (processEdges ctx route trav es acc).2
  | [], _, _ => fun hx => hx
  | e :: rest, acc, x => by
    intro hx
    rw [processEdges]
    by_cases hmem : e.path ∈ trav
    · rw [if_pos hmem]
      exact processEdges_acc_mem hx
    · rw [if_neg hmem]
      by_cases hdyn : (ctx.opts.allowUnsafeDynamicCyclicDependency &&
          (toTraverse ctx e.declarations).any fun d => d.dynamic) = true
      · rw [if_pos hdyn]
        exact hx
      · rw [if_neg hdyn]
        by_cases hcfm : e.path = ctx.filename ∧ 0 < (toTraverse ctx e.declarations).length
        · rw [if_pos hcfm]
          exact hx
        · rw [if_neg hcfm]
          apply processEdges_acc_mem
          split
          · exact List.mem_append_left _ hx
          · exact hx

theorem processEdges_push {ctx : Ctx} {route : List Source} {trav : List String}
    (hallow : ctx.opts.allowUnsafeDynamicCyclicDependency = false)
    (hgate : depthLt (route.length + 1) ctx.opts.maxDepth = true) :
    ∀ {es : List ImportEdge} {acc : List Traverser},
      (processEdges ctx route trav es acc).1 = false →
      ∀ e ∈ es, e.path ∉ trav → e.path ≠ ctx.filename →
        toTraverse ctx e.declarations ≠ [] →
        ∃ x ∈ (processEdges ctx route trav es acc).2,
          x.target = e.path ∧ x.route.length = route.length + 1
  | [], acc => by
    intro _ e he
    cases he
  | e :: rest, acc => by
    intro h e' he' hmem' hfile' htt'
    rw [processEdges] at h ⊢
    by_cases hmem : e.path ∈ trav
    · rw [if_pos hmem] at h ⊢
      rcases List.mem_cons.1 he' with rfl | he'
      · exact absurd hmem hmem'
      · exact processEdges_push hallow hgate h e' he' hmem' hfile' htt'
    · rw [if_neg hmem] at h ⊢
      rw [hallow] at h ⊢
      simp only [Bool.false_and, Bool.false_eq_true, if_false] at h ⊢
      by_cases hcfm : e.path = ctx.filename ∧ 0 < (toTraverse ctx e.declarations).length
      · rw [if_pos hcfm] at h
        cases h
      · rw [if_neg hcfm] at h ⊢
        rcases List.mem_cons.1 he' with heq | he'
        · subst heq
          rw [if_pos hgate] at h ⊢
          have hacc : ∀ x ∈ acc ++ (toTraverse ctx e'.declarations).map
              (fun d => { target := e'.path, route := route ++ [d.source] : Traverser }),
              x ∈ (processEdges ctx route trav rest
                (acc ++ (toTraverse ctx e'.declarations).map
                  (fun d => { target := e'.path, route := route ++ [d.source] }))).2 :=
            fun x hx => processEdges_acc_mem hx
          cases h0 : toTraverse ctx e'.declarations with
          | nil => exact absurd h0 htt'
          | cons a tl =>
            rw [h0] at hacc
            refine ⟨{ target := e'.path, route := route ++ [a.source] }, hacc _ ?_, rfl, by simp⟩
            simp
        · exact processEdges_push hallow hgate h e' he' hmem' hfile' htt'

end NoCycle

namespace NoCycle

theorem detectCycle_unresolved {ctx : Ctx} {t : Traverser} {trav : List String}
    (h : ctx.graph.find t.target = none) :
    detectCycle ctx t trav = (false, trav, []) := by
  unfold detectCycle
  rw [h]

theorem detectCycle_visited {ctx : Ctx} {t : Traverser} {trav : List String}
    {m : Module} (h : ctx.graph.find t.target = some m) (hm : m.path ∈ trav) :
    detectCycle ctx t trav = (false, trav, []) := by
  unfold detectCycle
  rw [h]
  simp only [if_pos hm]

theorem detectCycle_expand {ctx : Ctx} {t : Traverser} {trav : List String}
    {m : Module} (h : ctx.graph.find t.target = some m) (hm : m.path ∉ trav) :
    detectCycle ctx t trav =
      ((processEdges ctx t.route (m.path :: trav) m.imports []).1, m.path :: trav,
        (processEdges ctx t.route (m.path :: trav) m.imports []).2) := by
  unfold detectCycle
  rw [h]
  simp only [if_neg hm]

theorem bfsLoop_nil {ctx : Ctx} {trav : List String} :
    ∀ fuel, bfsLoop ctx fuel [] trav = (none, trav)
  | 0 => rfl
  | _ + 1 => rfl

theorem bfsLoop_cons {ctx : Ctx} {fuel : Nat} {t : Traverser}
    {rest : List Traverser} {trav : List String} :
    bfsLoop ctx (fuel + 1) (t :: rest) trav =
      (if (detectCycle ctx t trav).1 then (some t.route, (detectCycle ctx t trav).2.1)
       else bfsLoop ctx fuel (rest ++ (detectCycle ctx t trav).2.2)
         (detectCycle ctx t trav).2.1) := rfl

theorem processEdges_out_length {ctx : Ctx} {route : List Source} {trav : List String} :
    ∀ {es : List ImportEdge} {acc : List Traverser},
      (processEdges ctx route trav es acc).2.length ≤
        acc.length + (es.map fun e => e.declarations.length).sum
  | [], acc => by
    rw [processEdges]
    simp
  | e :: rest, acc => by
    rw [processEdges]
    by_cases hmem : e.path ∈ trav
    · rw [if_pos hmem]
      calc (processEdges ctx route trav rest acc).2.length
        ≤ acc.length + (rest.map fun e => e.declarations.length).sum :=
          processEdges_out_length
        _ ≤ acc.length + ((e :: rest).map fun e => e.declarations.length).sum := by
          simp only [List.map_cons, List.sum_cons]
          omega
    · rw [if_neg hmem]
      by_cases hdyn : (ctx.opts.allowUnsafeDynamicCyclicDependency &&
          (toTraverse ctx e.declarations).any fun d => d.dynamic) = true
      · rw [if_pos hdyn]
        simp only [List.map_cons, List.sum_cons]
        omega
      · rw [if_neg hdyn]
        by_cases hcfm : e.path = ctx.filename ∧ 0 < (toTraverse ctx e.declarations).length
        · rw [if_pos hcfm]
          simp only [List.map_cons, List.sum_cons]
          omega
        · rw [if_neg hcfm]
          have htt : (toTraverse ctx e.declarations).length ≤ e.declarations.length :=
            List.length_filter_le _ _
          have hbase : ∀ acc' : List Traverser,
              acc'.length ≤ acc.length + (toTraverse ctx e.declarations).length →
              (processEdges ctx route trav rest acc').2.length ≤
                acc.length + ((e :: rest).map fun e => e.declarations.length).sum := by
            intro acc' hacc'
            calc (processEdges ctx route trav rest acc').2.length
              ≤ acc'.length + (rest.map fun e => e.declarations.length).sum :=
                processEdges_out_length
              _ ≤ acc.length + ((e :: rest).map fun e => e.declarations.length).sum := by
                simp only [List.map_cons, List.sum_cons]
                omega
          split
          · exact hbase _ (by simp)
          · exact hbase _ (by omega)

end NoCycle

namespace NoCycle

theorem unvisitedCount_cons_lt {ctx : Ctx} {trav : List String} {pth : String}
    (hmem : pth ∈ ctx.graph.modules.map Module.path) (hnot : pth ∉ trav) :
    unvisitedCount ctx (pth :: trav) < unvisitedCount ctx trav := by
  unfold unvisitedCount
  revert hmem
  generalize ctx.graph.modules.map Module.path = paths
  intro hmem
  induction paths with
  | nil => cases hmem
  | cons a tl ih =>
    by_cases ha : a = pth
    · subst ha
      rw [List.filter_cons, List.filter_cons]
      have h1 : (decide (¬ a ∈ a :: trav)) = false := by simp
      have h2 : (decide (¬ a ∈ trav)) = true := by simpa using hnot
      rw [h1, h2, if_neg Bool.false_ne_true, if_pos rfl]
      have hsub : (tl.filter fun q => decide (¬ q ∈ a :: trav)).length ≤
          (tl.filter fun q => decide (¬ q ∈ trav)).length := by
        apply List.Sublist.length_le
        apply List.monotone_filter_right
        intro q hq
        simp only [decide_eq_true_eq] at hq ⊢
        intro hq'
        exact hq (List.mem_cons_of_mem _ hq')
      simp only [List.length_cons]
      omega
    · have hmem' : pth ∈ tl := by
        rcases List.mem_cons.1 hmem with heq | h
        · exact absurd heq.symm ha
        · exact h
      rw [List.filter_cons, List.filter_cons]
      by_cases hat : a ∈ trav
      · have h1 : (decide (¬ a ∈ pth :: trav)) = false := by
          simp [List.mem_cons_of_mem _ hat]
        have h2 : (decide (¬ a ∈ trav)) = false := by simpa using hat
        rw [h1, h2, if_neg Bool.false_ne_true, if_neg Bool.false_ne_true]
        exact ih hmem'
      · have h1 : (decide (¬ a ∈ pth :: trav)) = true := by
          simp only [decide_eq_true_eq]
          intro hcons
          rcases List.mem_cons.1 hcons with heq | h
          · exact ha heq
          · exact hat h
        have h2 : (decide (¬ a ∈ trav)) = true := by simpa using hat
        rw [h1, h2, if_pos rfl, if_pos rfl]
        simp only [List.length_cons]
        have := ih hmem'
        omega

theorem totalDecls_bound {ctx : Ctx} {m : Module}
    (hm : m ∈ ctx.graph.modules) :
    (m.imports.map fun e => e.declarations.length).sum ≤ totalDecls ctx := by
  unfold totalDecls
  exact List.single_le_sum (fun x _ => Nat.zero_le x) _
    (List.mem_map.2 ⟨m, hm, rfl⟩)

theorem potential_step {ctx : Ctx} {t : Traverser} {rest : List Traverser}
    {trav : List String} :
    potential ctx (rest ++ (detectCycle ctx t trav).2.2) (detectCycle ctx t trav).2.1 <
      potential ctx (t :: rest) trav := by
  cases hfind : ctx.graph.find t.target with
  | none =>
    rw [detectCycle_unresolved hfind]
    simp [potential]
  | some m =>
    by_cases hm : m.path ∈ trav
    · rw [detectCycle_visited hfind hm]
      simp [potential]
    · rw [detectCycle_expand hfind hm]
      have hmem : m ∈ ctx.graph.modules := List.mem_of_find?_eq_some hfind
      have hout : (processEdges ctx t.route (m.path :: trav) m.imports []).2.length ≤
          totalDecls ctx := by
        calc (processEdges ctx t.route (m.path :: trav) m.imports []).2.length
          ≤ ([] : List Traverser).length + (m.imports.map fun e => e.declarations.length).sum :=
            processEdges_out_length
          _ ≤ totalDecls ctx := by
            simpa using totalDecls_bound hmem
      have hu : unvisitedCount ctx (m.path :: trav) < unvisitedCount ctx trav :=
        unvisitedCount_cons_lt (List.mem_map.2 ⟨m, hmem, rfl⟩) hm
      unfold potential
      simp only [List.length_append, List.length_cons]
      have hmul : (unvisitedCount ctx (m.path :: trav) + 1) * (1 + totalDecls ctx) ≤
          unvisitedCount ctx trav * (1 + totalDecls ctx) :=
        Nat.mul_le_mul_right _ hu
      have hexp : (unvisitedCount ctx (m.path :: trav) + 1) * (1 + totalDecls ctx) =
          unvisitedCount ctx (m.path :: trav) * (1 + totalDecls ctx) + 1 + totalDecls ctx := by
        ring
      omega

theorem potential_pos {ctx : Ctx} {t : Traverser} {rest : List Traverser}
    {trav : List String} : 0 < potential ctx (t :: rest) trav := by
  unfold potential
  simp

end NoCycle

namespace NoCycle

theorem detectCycle_found {ctx : Ctx} {t : Traverser} {trav : List String}
    (h : (detectCycle ctx t trav).1 = true) : qedge ctx t.target ctx.filename := by
  cases hfind : ctx.graph.find t.target with
  | none => rw [detectCycle_unresolved hfind] at h; cases h
  | some m =>
    by_cases hm : m.path ∈ trav
    · rw [detectCycle_visited hfind hm] at h
      cases h
    · rw [detectCycle_expand hfind hm] at h
      obtain ⟨e, he, _, hpath, htt⟩ := processEdges_found h
      exact ⟨m, hfind, e, he, hpath, htt⟩

theorem bfsLoop_sound {ctx : Ctx} {avoid : List String} {p0 : String} :
    ∀ {fuel : Nat} {queue : List Traverser} {trav : List String} {r : List Source}
      {trav' : List String},
      bfsLoop ctx fuel queue trav = (some r, trav') →
      (∀ t ∈ queue, QReach ctx avoid p0 t.route.length t.target) →
      (∀ t ∈ queue, t.route.length = 0 ∨ depthLt t.route.length ctx.opts.maxDepth = true) →
      avoid ⊆ trav →
      (∃ q, QReach ctx avoid p0 r.length q ∧ qedge ctx q ctx.filename) ∧
      (r.length = 0 ∨ depthLt r.length ctx.opts.maxDepth = true)
  | 0, queue, trav, r, trav' => by
    intro h
    rw [bfsLoop] at h
    cases h
  | fuel + 1, [], trav, r, trav' => by
    intro h
    rw [bfsLoop] at h
    cases h
  | fuel + 1, t :: rest, trav, r, trav' => by
    intro h hvalid hdepth hsub
    rw [bfsLoop_cons] at h
    by_cases hfound : (detectCycle ctx t trav).1 = true
    · rw [if_pos hfound] at h
      have hr : t.route = r := by
        have := congrArg Prod.fst h
        simpa using this
      subst hr
      refine ⟨⟨t.target, hvalid t (List.mem_cons_self _ _), detectCycle_found hfound⟩,
        hdepth t (List.mem_cons_self _ _)⟩
    · rw [if_neg hfound] at h
      cases hfind : ctx.graph.find t.target with
      | none =>
        rw [detectCycle_unresolved hfind] at h
        refine bfsLoop_sound h ?_ ?_ hsub
        · intro x hx
          rw [List.append_nil] at hx
          exact hvalid x (List.mem_cons_of_mem _ hx)
        · intro x hx
          rw [List.append_nil] at hx
          exact hdepth x (List.mem_cons_of_mem _ hx)
      | some m =>
        by_cases hm : m.path ∈ trav
        · rw [detectCycle_visited hfind hm] at h
          refine bfsLoop_sound h ?_ ?_ hsub
          · intro x hx
            rw [List.append_nil] at hx
            exact hvalid x (List.mem_cons_of_mem _ hx)
          · intro x hx
            rw [List.append_nil] at hx
            exact hdepth x (List.mem_cons_of_mem _ hx)
        · rw [detectCycle_expand hfind hm] at h
          have hpath : m.path = t.target := Graph.find_path hfind
          refine bfsLoop_sound h ?_ ?_ ?_
          · intro x hx
            rcases List.mem_append.1 hx with hx | hx
            · exact hvalid x (List.mem_cons_of_mem _ hx)
            · rcases processEdges_out_mem hx with hx0 | ⟨e, he, d, hd, hxt, hxr, hnt, hnf, _⟩
              · cases hx0
              · have hqe : qedge ctx t.target e.path :=
                  ⟨m, hfind, e, he, rfl, by
                    intro h0
                    rw [h0] at hd
                    cases hd⟩
                have hxa : e.path ∉ avoid := fun ha =>
                  hnt (List.mem_cons_of_mem _ (hsub ha))
                have := (hvalid t (List.mem_cons_self _ _)).snoc hqe hnf hxa
                rw [hxt, hxr]
                simpa using this
          · intro x hx
            rcases List.mem_append.1 hx with hx | hx
            · exact hdepth x (List.mem_cons_of_mem _ hx)
            · rcases processEdges_out_mem hx with hx0 | ⟨e, he, d, hd, hxt, hxr, hnt, hnf, hgate⟩
              · cases hx0
              · right
                rw [hxr]
                simpa using hgate
          · exact fun a ha => List.mem_cons_of_mem _ (hsub ha)

theorem check_sound {ctx : Ctx} {v : String} {importer : Importer}
    {trav : List String} {r : List Source} {trav' : List String}
    (h : checkSourceValue ctx v importer trav = (some r, trav')) :
    ∃ m, exportMapGet ctx v = some m ∧ m.path ∉ trav ∧
      (∃ q, QReach ctx trav m.path r.length q ∧ qedge ctx q ctx.filename) ∧
      (r.length = 0 ∨ depthLt r.length ctx.opts.maxDepth = true) := by
  unfold checkSourceValue at h
  split at h
  · cases h
  · split at h
    · cases h
    · split at h
      · cases h
      · split at h
        · cases h
        · rename_i m hres
          refine ⟨m, hres, ?_⟩
          unfold checkResolved at h
          split at h
          · cases h
          · rename_i hself
            have hbfs : ∃ fuel, bfsLoop ctx fuel
                [{ target := m.path, route := [] }] trav = (some r, trav') := by
              split at h
              · split at h
                · exact ⟨_, h⟩
                · cases h
              · exact ⟨_, h⟩
            obtain ⟨fuel, hbfs⟩ := hbfs
            have hfind : ctx.graph.find m.path = some m := exportMapGet_find hres
            by_cases hmem : m.path ∈ trav
            · exfalso
              cases fuel with
              | zero =>
                rw [bfsLoop] at hbfs
                cases hbfs
              | succ fuel =>
                rw [bfsLoop_cons] at hbfs
                rw [detectCycle_visited hfind hmem] at hbfs
                simp only [Bool.false_eq_true, if_false, List.nil_append] at hbfs
                rw [bfsLoop_nil] at hbfs
                cases hbfs
            · refine ⟨hmem, ?_⟩
              refine bfsLoop_sound hbfs ?_ ?_ (fun a ha => ha)
              · intro x hx
                rcases List.mem_singleton.1 hx with rfl
                exact .refl m.path hself hmem
              · intro x hx
                rcases List.mem_singleton.1 hx with rfl
                exact Or.inl rfl

end NoCycle

namespace NoCycle

theorem detectCycle_trav_grows {ctx : Ctx} {t : Traverser} {trav : List String} :
    trav ⊆ (detectCycle ctx t trav).2.1 := by
  cases hfind : ctx.graph.find t.target with
  | none =>
    rw [detectCycle_unresolved hfind]
    exact fun a ha => ha
  | some m =>
    by_cases hm : m.path ∈ trav
    · rw [detectCycle_visited hfind hm]
      exact fun a ha => ha
    · rw [detectCycle_expand hfind hm]
      exact fun a ha => List.mem_cons_of_mem _ ha

theorem bfsLoop_trav_grows {ctx : Ctx} :
    ∀ {fuel : Nat} {queue : List Traverser} {trav : List String},
      trav ⊆ (bfsLoop ctx fuel queue trav).2
  | 0, queue, trav => by
    rw [bfsLoop]
    exact fun a ha => ha
  | fuel + 1, [], trav => by
    rw [bfsLoop]
    exact fun a ha => ha
  | fuel + 1, t :: rest, trav => by
    rw [bfsLoop_cons]
    split
    · exact detectCycle_trav_grows
    · exact detectCycle_trav_grows.trans bfsLoop_trav_grows

theorem checkSourceValue_trav_grows {ctx : Ctx} {v : String} {importer : Importer}
    {trav : List String} : trav ⊆ (checkSourceValue ctx v importer trav).2 := by
  unfold checkSourceValue
  split
  · exact fun a ha => ha
  · split
    · exact fun a ha => ha
    · split
      · exact fun a ha => ha
      · split
        · exact fun a ha => ha
        · unfold checkResolved
          split
          · exact fun a ha => ha
          · split
            · split
              · exact bfsLoop_trav_grows
              · exact fun a ha => ha
            · exact bfsLoop_trav_grows

/-- C9: the traversal visited-set is empty when a file's analysis begins (it
is cleared at the previous `Program:exit` and starts empty), grows
monotonically across all import checks within the file, and is cleared
exactly when the file's analysis ends; consequently any reported cycle rests
on a qualifying route that avoids every path already visited when that check
began — so a cycle reachable only through paths marked visited by an earlier
check in the same file is not reported for a later import. -/
theorem c9_traversed_lifecycle :
    (∀ (ctx : Ctx) (v : String) (importer : Importer) (trav : List String),
        trav ⊆ (checkSourceValue ctx v importer trav).2) ∧
    (∀ (ctx : Ctx) (checks : List (String × Importer)) (trav : List String),
        (analyzeFile ctx checks trav).2 = []) ∧
    (∀ (ctx : Ctx) (v : String) (importer : Importer) (trav : List String)
        (r : List Source) (trav' : List String),
        checkSourceValue ctx v importer trav = (some r, trav') →
        ∃ m, exportMapGet ctx v = some m ∧ m.path ∉ trav ∧
          ∃ q, QReach ctx trav m.path r.length q ∧ qedge ctx q ctx.filename) := by
  refine ⟨fun ctx v importer trav => checkSourceValue_trav_grows,
    fun ctx checks trav => rfl, ?_⟩
  intro ctx v importer trav r trav' h
  obtain ⟨m, hres, hmem, hq, _⟩ := check_sound h
  exact ⟨m, hres, hmem, hq⟩

theorem c9_witness :
    (["z"] : List String) ⊆
      (checkSourceValue (ctxAB defaultOpts) "./b" importerStatic ["z"]).2 ∧
    (analyzeFile (ctxAB defaultOpts) [("./b", importerStatic)] []).2 = [] ∧
    (∃ m, exportMapGet (ctxAB defaultOpts) "./b" = some m ∧
      m.path ∉ ([] : List String) ∧
      ∃ q, QReach (ctxAB defaultOpts) [] m.path ([] : List Source).length q ∧
        qedge (ctxAB defaultOpts) q (ctxAB defaultOpts).filename) :=
  ⟨c9_traversed_lifecycle.1 (ctxAB defaultOpts) "./b" importerStatic ["z"],
    c9_traversed_lifecycle.2.1 (ctxAB defaultOpts) [("./b", importerStatic)] [],
    c9_traversed_lifecycle.2.2 (ctxAB defaultOpts) "./b" importerStatic [] [] ["b"] rfl⟩

end NoCycle

namespace NoCycle

/-- C2 counterexample: with `allowUnsafeDynamicCyclicDependency = true`, the
dynamic escape abandons node `c` — which lies on the only two-hop qualifying
cycle — so the check reports the three-hop route through `e` and `h` instead:
the reported route does not have the minimum number of hops among all
qualifying cycles. -/
theorem c2_counterexample :
    (checkSourceValue ctxDyn "./b" importerStatic []).1 =
      some [{ value := "./e", line := 2 }, { value := "./h", line := 1 }] ∧
    QCycle ctxDyn [] "b" 2 ∧
    2 < ([{ value := "./e", line := 2 }, { value := "./h", line := 1 }] : List Source).length + 1 := by
  refine ⟨rfl, ⟨1, "c", rfl, ?_, ⟨modDyn_c, rfl, by decide⟩⟩, by decide⟩
  exact .step "b" "c" "c" 0 (by decide) (by simp) ⟨modDyn_b, rfl, by decide⟩
    (.refl "c" (by decide) (by simp))

/-- C3 counterexample: with `allowUnsafeDynamicCyclicDependency = true` and
`maxDepth = 1`, the graph `ctxEsc` has a qualifying cycle whose minimal route
is exactly `maxDepth` hops (the one-hop cycle `b → a`), yet the check reports
nothing because the dynamic escape abandons `b` before its `a` edge is
scanned. -/
theorem c3_counterexample :
    ctxEsc.opts.maxDepth = some 1 ∧
    QCycle ctxEsc [] "b" 1 ∧
    (checkSourceValue ctxEsc "./b" importerStatic []).1 = none := by
  exact ⟨rfl, ⟨0, "b", rfl, .refl "b" (by decide) (by simp), ⟨modEsc_b, rfl, by decide⟩⟩, rfl⟩

end NoCycle

namespace NoCycle

theorem isDist_exists {ctx : Ctx} {p0 p : String} {k : Nat}
    (h : QReach ctx [] p0 k p) : ∃ d, IsDist ctx [] p0 p d ∧ d ≤ k := by
  classical
  have hex : ∃ n, QReach ctx [] p0 n p := ⟨k, h⟩
  refine ⟨Nat.find hex, ⟨Nat.find_spec hex, fun d' hd' => Nat.find_min hex hd'⟩,
    Nat.find_le h⟩

theorem IsDist.le_of_reach {ctx : Ctx} {p0 p : String} {d k : Nat}
    (hd : IsDist ctx [] p0 p d) (h : QReach ctx [] p0 k p) : d ≤ k := by
  by_contra hlt
  exact hd.2 k (by omega) h

theorem isDist_parent {ctx : Ctx} {p0 p : String} {dd : Nat}
    (hd : IsDist ctx [] p0 p (dd + 1)) :
    ∃ p', IsDist ctx [] p0 p' dd ∧ qedge ctx p' p := by
  obtain ⟨q, hq, he⟩ := hd.1.unsnoc
  obtain ⟨d', hd', hle⟩ := isDist_exists hq
  rcases Nat.lt_or_ge d' dd with hlt | hge
  · exfalso
    have hpf : p ≠ ctx.filename := hd.1.end_not_filename
    have hpa : p ∉ ([] : List String) := hd.1.end_not_avoided
    exact hd.2 (d' + 1) (by omega) (hd'.1.snoc he hpf hpa)
  · have : d' = dd := by omega
    subst this
    exact ⟨q, hd', he⟩

end NoCycle

namespace NoCycle

theorem bfsInv_pop_noop {ctx : Ctx} {p0 : String} {t0 : Traverser}
    {rest : List Traverser} {trav : List String}
    (inv : BfsInv ctx p0 (t0 :: rest) trav)
    (hno : ctx.graph.find t0.target = none ∨
      ∃ m, ctx.graph.find t0.target = some m ∧ m.path ∈ trav) :
    BfsInv ctx p0 rest trav := by
  have huseful : ∀ p, t0.target = p → (∃ mp, ctx.graph.find p = some mp) →
      p ∉ trav → False := by
    intro p hpt ⟨mp, hmp⟩ hpnt
    rcases hno with hnone | ⟨m, hm, hmem⟩
    · rw [hpt, hmp] at hnone
      cases hnone
    · rw [hpt, hmp] at hm
      injection hm with hm
      subst hm
      exact hpnt (Graph.find_path hmp ▸ hmem)
  refine ⟨?_, ?_, ?_, inv.noMissed, ?_, inv.fileNotTrav, ?_, ?_, ?_⟩
  · exact fun t ht => inv.validity t (List.mem_cons_of_mem _ ht)
  · exact (List.pairwise_cons.1 inv.sorted).2
  · exact fun a ha b hb => inv.spread a (List.mem_cons_of_mem _ ha) b
      (List.mem_cons_of_mem _ hb)
  · exact fun t ht => inv.notFile t (List.mem_cons_of_mem _ ht)
  · exact fun t ht => inv.depthBound t (List.mem_cons_of_mem _ ht)
  · -- frontier
    intro p d
    induction d using Nat.strong_induction_on generalizing p with
    | _ d ih =>
      intro hpf hpres hpnt hdist hgate
      rcases inv.frontier p d hpf hpres hpnt hdist hgate with
        ⟨w, hw, hwt, hwl⟩ | ⟨s, hs, hsl⟩
      · rcases List.mem_cons.1 hw with heq | hw
        · exact absurd (huseful p (heq ▸ hwt) hpres hpnt) (fun h => h)
        · exact Or.inl ⟨w, hw, hwt, hwl⟩
      · rcases List.mem_cons.1 hs with heq | hs
        · subst heq
          cases d with
          | zero => omega
          | succ dd =>
            obtain ⟨p', hp'dist, hp'edge⟩ := isDist_parent hdist
            have hp'f : p' ≠ ctx.filename := hp'dist.1.end_not_filename
            have hp'res := qedge_resolvable hp'edge
            have hgated : depthLt (dd + 1) ctx.opts.maxDepth = true := by
              rcases hgate with h0 | h
              · omega
              · exact h
            have hgate' : dd = 0 ∨ depthLt dd ctx.opts.maxDepth = true :=
              Or.inr (depthLt_of_le (by omega) hgated)
            by_cases hp'T : p' ∈ trav
            · rcases inv.closure p' hp'T dd hp'dist p hpf hp'edge hpres hgated with
                hpT | ⟨w, hw, hwt, hwl⟩
              · exact absurd hpT hpnt
              · rcases List.mem_cons.1 hw with heq | hw
                · exact absurd (huseful p (heq ▸ hwt) hpres hpnt) (fun h => h)
                · refine Or.inl ⟨w, hw, hwt, ?_⟩
                  have hge : dd + 1 ≤ w.route.length := by
                    by_contra hlt
                    exact hdist.2 w.route.length (by omega)
                      (hwt ▸ inv.validity w (List.mem_cons_of_mem _ hw))
                  omega
            · rcases ih dd (by omega) p' hp'f hp'res hp'T hp'dist hgate' with
                ⟨w, hw, _, hwl⟩ | ⟨s', hs', hsl'⟩
              · exact Or.inr ⟨w, hw, by omega⟩
              · exact Or.inr ⟨s', hs', by omega⟩
        · exact Or.inr ⟨s, hs, hsl⟩
  · -- closure
    intro p hpT dp hdp q hqf hqe hqres hgate
    rcases inv.closure p hpT dp hdp q hqf hqe hqres hgate with hq | ⟨w, hw, hwt, hwl⟩
    · exact Or.inl hq
    · rcases List.mem_cons.1 hw with heq | hw
      · by_cases hqT : q ∈ trav
        · exact Or.inl hqT
        · exact absurd (huseful q (heq ▸ hwt) hqres hqT) (fun h => h)
      · exact Or.inr ⟨w, hw, hwt, hwl⟩

end NoCycle

namespace NoCycle

theorem bfsInv_pop_expand {ctx : Ctx} {p0 : String} {t0 : Traverser}
    {rest : List Traverser} {trav : List String} {m : Module}
    (hallow : ctx.opts.allowUnsafeDynamicCyclicDependency = false)
    (inv : BfsInv ctx p0 (t0 :: rest) trav)
    (hfind : ctx.graph.find t0.target = some m) (hm : m.path ∉ trav)
    (hscan : (processEdges ctx t0.route (m.path :: trav) m.imports []).1 = false) :
    BfsInv ctx p0 (rest ++ (processEdges ctx t0.route (m.path :: trav) m.imports []).2)
      (m.path :: trav) := by
  have hpm : m.path = t0.target := Graph.find_path hfind
  have htf : t0.target ≠ ctx.filename := inv.notFile t0 (List.mem_cons_self _ _)
  have hval0 : QReach ctx [] p0 t0.route.length t0.target :=
    inv.validity t0 (List.mem_cons_self _ _)
  have hmem' : t0.target ∉ trav := hpm ▸ hm
  have hheadmin : ∀ x ∈ rest, t0.route.length ≤ x.route.length :=
    (List.pairwise_cons.1 inv.sorted).1
  have hrest_ub : ∀ x ∈ rest, x.route.length ≤ t0.route.length + 1 := fun x hx =>
    inv.spread x (List.mem_cons_of_mem _ hx) t0 (List.mem_cons_self _ _)
  have hpush : ∀ x ∈ (processEdges ctx t0.route (m.path :: trav) m.imports []).2,
      qedge ctx t0.target x.target ∧ x.route.length = t0.route.length + 1 ∧
      x.target ∉ m.path :: trav ∧ x.target ≠ ctx.filename ∧
      depthLt (t0.route.length + 1) ctx.opts.maxDepth = true := by
    intro x hx
    rcases processEdges_out_mem hx with h0 | ⟨e, he, d, hd, hxt, hxr, hnt, hnf, hgate⟩
    · cases h0
    · have htt : toTraverse ctx e.declarations ≠ [] := by
        intro h0
        rw [h0] at hd
        cases hd
      refine ⟨⟨m, hfind, e, he, hxt.symm, htt⟩, ?_, hxt ▸ hnt, hxt ▸ hnf, hgate⟩
      rw [hxr]
      simp
  have hdistexp : ∀ dd, IsDist ctx [] p0 t0.target dd →
      (dd = 0 ∨ depthLt dd ctx.opts.maxDepth = true) → t0.route.length = dd := by
    intro dd hdd hg
    have hge : dd ≤ t0.route.length := hdd.le_of_reach hval0
    rcases inv.frontier t0.target dd htf ⟨m, hfind⟩ hmem' hdd hg with
      ⟨w, hw, hwt, hwl⟩ | ⟨s, hs, hsl⟩
    · rcases List.mem_cons.1 hw with heq | hw
      · rw [heq] at hwl
        omega
      · have := hheadmin w hw
        omega
    · rcases List.mem_cons.1 hs with heq | hs
      · rw [heq] at hsl
        omega
      · have := hheadmin s hs
        omega
  have hnomiss : ¬ qedge ctx t0.target ctx.filename := by
    rintro ⟨m', hm', e, he, hpath, htt⟩
    rw [hfind] at hm'
    injection hm' with hm'
    subst hm'
    have hnin : e.path ∉ m.path :: trav := by
      rw [hpath]
      intro hin
      rcases List.mem_cons.1 hin with heq | hin
      · exact htf (hpm ▸ heq.symm)
      · exact inv.fileNotTrav hin
    exact processEdges_not_found hallow hscan e he hnin ⟨hpath, htt⟩
  have hpushq : ∀ q, qedge ctx t0.target q → q ∉ m.path :: trav → q ≠ ctx.filename →
      depthLt (t0.route.length + 1) ctx.opts.maxDepth = true →
      ∃ x ∈ (processEdges ctx t0.route (m.path :: trav) m.imports []).2,
        x.target = q ∧ x.route.length = t0.route.length + 1 := by
    rintro q ⟨m', hm', e, he, hpath, htt⟩ hq hqf hg
    rw [hfind] at hm'
    injection hm' with hm'
    subst hm'
    obtain ⟨x, hx, hxt, hxl⟩ := processEdges_push hallow hg hscan e he
      (by rw [hpath]; exact hq) (by rw [hpath]; exact hqf) htt
    exact ⟨x, hx, hxt.trans hpath, hxl⟩
  refine ⟨?_, ?_, ?_, ?_, ?_, ?_, ?_, ?_, ?_⟩
  · -- validity
    intro t ht
    rcases List.mem_append.1 ht with ht | ht
    · exact inv.validity t (List.mem_cons_of_mem _ ht)
    · obtain ⟨hqe, hlen, _, hnf, _⟩ := hpush t ht
      have := hval0.snoc hqe hnf (by simp)
      rw [hlen]
      exact this
  · -- sorted
    refine List.pairwise_append.2 ⟨(List.pairwise_cons.1 inv.sorted).2, ?_, ?_⟩
    · exact List.pairwise_of_forall_mem_list fun a ha b hb => by
        rw [(hpush a ha).2.1, (hpush b hb).2.1]
    · intro a ha b hb
      rw [(hpush b hb).2.1]
      have := hrest_ub a ha
      omega
  · -- spread
    intro a ha b hb
    have hbnd : ∀ x ∈ rest ++ (processEdges ctx t0.route (m.path :: trav) m.imports []).2,
        t0.route.length ≤ x.route.length ∧ x.route.length ≤ t0.route.length + 1 := by
      intro x hx
      rcases List.mem_append.1 hx with hx | hx
      · exact ⟨hheadmin x hx, hrest_ub x hx⟩
      · rw [(hpush x hx).2.1]
        omega
    have h1 := hbnd a ha
    have h2 := hbnd b hb
    omega
  · -- noMissed
    intro p hp
    rcases List.mem_cons.1 hp with heq | hp
    · subst heq
      rw [hpm]
      exact hnomiss
    · exact inv.noMissed p hp
  · -- notFile
    intro t ht
    rcases List.mem_append.1 ht with ht | ht
    · exact inv.notFile t (List.mem_cons_of_mem _ ht)
    · exact (hpush t ht).2.2.2.1
  · -- fileNotTrav
    intro hin
    rcases List.mem_cons.1 hin with heq | hin
    · exact htf (hpm ▸ heq.symm)
    · exact inv.fileNotTrav hin
  · -- depthBound
    intro t ht
    rcases List.mem_append.1 ht with ht | ht
    · exact inv.depthBound t (List.mem_cons_of_mem _ ht)
    · right
      rw [(hpush t ht).2.1]
      exact (hpush t ht).2.2.2.2
  · -- frontier
    intro p d
    induction d using Nat.strong_induction_on generalizing p with
    | _ d ih =>
      intro hpf hpres hpnt' hdist hgate
      have hpnhat : p ≠ m.path := fun h => hpnt' (h ▸ List.mem_cons_self _ _)
      have hpnt : p ∉ trav := fun h => hpnt' (List.mem_cons_of_mem _ h)
      rcases inv.frontier p d hpf hpres hpnt hdist hgate with
        ⟨w, hw, hwt, hwl⟩ | ⟨s, hs, hsl⟩
      · rcases List.mem_cons.1 hw with heq | hw
        · exfalso
          apply hpnhat
          rw [hpm, ← hwt, heq]
        · exact Or.inl ⟨w, List.mem_append_left _ hw, hwt, hwl⟩
      · rcases List.mem_cons.1 hs with heq | hs
        · rw [heq] at hsl
          cases d with
          | zero => omega
          | succ dd =>
            obtain ⟨p', hp'dist, hp'edge⟩ := isDist_parent hdist
            have hp'f : p' ≠ ctx.filename := hp'dist.1.end_not_filename
            have hp'res := qedge_resolvable hp'edge
            have hgated : depthLt (dd + 1) ctx.opts.maxDepth = true := by
              rcases hgate with h0 | h
              · omega
              · exact h
            have hgate' : dd = 0 ∨ depthLt dd ctx.opts.maxDepth = true :=
              Or.inr (depthLt_of_le (by omega) hgated)
            by_cases hp'T : p' ∈ trav
            · rcases inv.closure p' hp'T dd hp'dist p hpf hp'edge hpres hgated with
                hpT | ⟨w, hw, hwt, hwl⟩
              · exact absurd hpT hpnt
              · rcases List.mem_cons.1 hw with heq' | hw
                · exfalso
                  apply hpnhat
                  rw [hpm, ← hwt, heq']
                · refine Or.inl ⟨w, List.mem_append_left _ hw, hwt, ?_⟩
                  have hge : dd + 1 ≤ w.route.length := by
                    by_contra hlt
                    exact hdist.2 w.route.length (by omega)
                      (hwt ▸ inv.validity w (List.mem_cons_of_mem _ hw))
                  omega
            · by_cases hp'hat : p' = t0.target
              · have hexp : t0.route.length = dd := by
                  apply hdistexp dd _ hgate'
                  rw [← hp'hat]
                  exact hp'dist
                obtain ⟨x, hx, hxt, hxl⟩ := hpushq p (by rw [← hp'hat]; exact hp'edge)
                  hpnt' hpf (by rw [hexp]; exact hgated)
                exact Or.inl ⟨x, List.mem_append_right _ hx, hxt, by omega⟩
              · have hp'nt' : p' ∉ m.path :: trav := by
                  intro hh
                  rcases List.mem_cons.1 hh with heq' | hh
                  · exact hp'hat (heq'.trans hpm)
                  · exact hp'T hh
                rcases ih dd (by omega) p' hp'f hp'res hp'nt' hp'dist hgate' with
                  ⟨w, hw, _, hwl⟩ | ⟨s', hs', hsl'⟩
                · exact Or.inr ⟨w, hw, by omega⟩
                · exact Or.inr ⟨s', hs', by omega⟩
        · exact Or.inr ⟨s, List.mem_append_left _ hs, hsl⟩
  · -- closure
    intro p hpT' dp hdp q hqf hqe hqres hgate
    rcases List.mem_cons.1 hpT' with heq | hpT
    · subst heq
      have hdd : IsDist ctx [] p0 t0.target dp := hpm ▸ hdp
      have hexp : t0.route.length = dp :=
        hdistexp dp hdd (Or.inr (depthLt_of_le (by omega) hgate))
      by_cases hqT : q ∈ m.path :: trav
      · exact Or.inl hqT
      · obtain ⟨x, hx, hxt, hxl⟩ := hpushq q (hpm ▸ hqe) hqT hqf
          (by rw [hexp]; exact hgate)
        exact Or.inr ⟨x, List.mem_append_right _ hx, hxt, by omega⟩
    · rcases inv.closure p hpT dp hdp q hqf hqe hqres hgate with hq | ⟨w, hw, hwt, hwl⟩
      · exact Or.inl (List.mem_cons_of_mem _ hq)
      · rcases List.mem_cons.1 hw with heq | hw
        · left
          rw [← hwt, heq, ← hpm]
          exact List.mem_cons_self _ _
        · exact Or.inr ⟨w, List.mem_append_left _ hw, hwt, hwl⟩

end NoCycle

namespace NoCycle

theorem qedge_elim {ctx : Ctx} {p q : String} {m : Module}
    (h : qedge ctx p q) (hm : ctx.graph.find p = some m) :
    ∃ e ∈ m.imports, e.path = q ∧ toTraverse ctx e.declarations ≠ [] := by
  obtain ⟨m', hm', he⟩ := h
  rw [hm] at hm'
  injection hm' with hm'
  subst hm'
  exact he

theorem bfsInv_init {ctx : Ctx} {p0 : String} (hp0 : p0 ≠ ctx.filename) :
    BfsInv ctx p0 [{ target := p0, route := [] }] [] := by
  refine ⟨?_, ?_, ?_, ?_, ?_, ?_, ?_, ?_, ?_⟩
  · intro t ht
    rcases List.mem_singleton.1 ht with rfl
    exact .refl p0 hp0 (by simp)
  · simp
  · intro a ha b hb
    rcases List.mem_singleton.1 ha with rfl
    rcases List.mem_singleton.1 hb with rfl
    omega
  · intro p hp
    cases hp
  · intro t ht
    rcases List.mem_singleton.1 ht with rfl
    exact hp0
  · simp
  · intro t ht
    rcases List.mem_singleton.1 ht with rfl
    exact Or.inl rfl
  · intro p d hpf hpres hpnt hdist hgate
    cases d with
    | zero =>
      left
      have hpp : p0 = p := hdist.1.zero_eq
      exact ⟨_, List.mem_singleton_self _, hpp, rfl⟩
    | succ dd =>
      right
      exact ⟨_, List.mem_singleton_self _, by simp⟩
  · intro p hp
    cases hp

theorem bfsLoop_complete {ctx : Ctx} {p0 : String}
    (hallow : ctx.opts.allowUnsafeDynamicCyclicDependency = false)
    {h : Nat} (hcyc : QCycle ctx [] p0 h)
    (hmin : ∀ h' < h, ¬ QCycle ctx [] p0 h')
    (hgate : h - 1 = 0 ∨ depthLt (h - 1) ctx.opts.maxDepth = true) :
    ∀ (fuel : Nat) (queue : List Traverser) (trav : List String),
      potential ctx queue trav ≤ fuel →
      BfsInv ctx p0 queue trav →
      ∃ r trav', bfsLoop ctx fuel queue trav = (some r, trav') ∧ r.length + 1 = h := by
  obtain ⟨k, qq, hk, hre, hqe⟩ := hcyc
  obtain ⟨dstar, hdstar, hdle⟩ := isDist_exists hre
  have hdeq : dstar = k := by
    by_contra hne
    exact hmin (dstar + 1) (by omega) ⟨dstar, qq, rfl, hdstar.1, hqe⟩
  rw [hdeq] at hdstar
  have hqqf : qq ≠ ctx.filename := hre.end_not_filename
  have hqqres : ∃ mq, ctx.graph.find qq = some mq := qedge_resolvable hqe
  have hgate' : k = 0 ∨ depthLt k ctx.opts.maxDepth = true := by
    rcases hgate with h0 | hlt
    · left; omega
    · right
      have hh : h - 1 = k := by omega
      rw [← hh]
      exact hlt
  have hfrontier_item : ∀ queue trav, BfsInv ctx p0 queue trav →
      ∃ t ∈ queue, t.route.length ≤ k := by
    intro queue trav inv
    have hqqnt : qq ∉ trav := by
      intro hin
      exact inv.noMissed qq hin hqe
    rcases inv.frontier qq k hqqf hqqres hqqnt hdstar hgate' with
      ⟨w, hw, _, hwl⟩ | ⟨s, hs, hsl⟩
    · exact ⟨w, hw, by omega⟩
    · exact ⟨s, hs, by omega⟩
  intro fuel
  induction fuel with
  | zero =>
    intro queue trav hpot inv
    exfalso
    cases queue with
    | nil =>
      obtain ⟨t, ht, _⟩ := hfrontier_item [] trav inv
      cases ht
    | cons t0 rest =>
      have : 0 < potential ctx (t0 :: rest) trav := potential_pos
      omega
  | succ fuel ih =>
    intro queue trav hpot inv
    cases queue with
    | nil =>
      exfalso
      obtain ⟨t, ht, _⟩ := hfrontier_item [] trav inv
      cases ht
    | cons t0 rest =>
      by_cases hfound : (detectCycle ctx t0 trav).1 = true
      · refine ⟨t0.route, (detectCycle ctx t0 trav).2.1, ?_, ?_⟩
        · rw [bfsLoop_cons, if_pos hfound]
        · have hup : t0.route.length ≤ k := by
            obtain ⟨t, ht, htl⟩ := hfrontier_item (t0 :: rest) trav inv
            rcases List.mem_cons.1 ht with heq | ht
            · rw [heq] at htl
              exact htl
            · have := (List.pairwise_cons.1 inv.sorted).1 t ht
              omega
          have hlow : k ≤ t0.route.length := by
            have hqf := detectCycle_found hfound
            have hval := inv.validity t0 (List.mem_cons_self _ _)
            by_contra hlt
            exact hmin (t0.route.length + 1) (by omega)
              ⟨t0.route.length, t0.target, rfl, hval, hqf⟩
          omega
      · have hstep : BfsInv ctx p0 (rest ++ (detectCycle ctx t0 trav).2.2)
            (detectCycle ctx t0 trav).2.1 := by
          cases hfind : ctx.graph.find t0.target with
          | none =>
            rw [detectCycle_unresolved hfind]
            simpa using bfsInv_pop_noop inv (Or.inl hfind)
          | some mm =>
            by_cases hmv : mm.path ∈ trav
            · rw [detectCycle_visited hfind hmv]
              simpa using bfsInv_pop_noop inv (Or.inr ⟨mm, hfind, hmv⟩)
            · rw [detectCycle_expand hfind hmv]
              apply bfsInv_pop_expand hallow inv hfind hmv
              rw [detectCycle_expand hfind hmv] at hfound
              exact Bool.not_eq_true _ ▸ hfound
        have hpot' : potential ctx (rest ++ (detectCycle ctx t0 trav).2.2)
            (detectCycle ctx t0 trav).2.1 ≤ fuel := by
          have := @potential_step ctx t0 rest trav
          omega
        obtain ⟨r, trav', hrun, hlen⟩ := ih _ _ hpot' hstep
        refine ⟨r, trav', ?_, by omega⟩
        rw [bfsLoop_cons, if_neg hfound]
        exact hrun

end NoCycle

namespace NoCycle

theorem check_reduces {ctx : Ctx} {v : String} {importer : Importer} {m : Module}
    (hig : ignoreModule ctx v = false)
    (hdyn : dynamicImportSkipped ctx.opts importer = false)
    (hty : typeOnlyImportSkipped importer = false)
    (hres : exportMapGet ctx v = some m)
    (hself : m.path ≠ ctx.filename)
    (hscc : ∀ f, ctx.scc = some f → f ctx.filename = f m.path)
    (trav : List String) :
    checkSourceValue ctx v importer trav =
      bfsLoop ctx (potential ctx [{ target := m.path, route := [] }] trav)
        [{ target := m.path, route := [] }] trav := by
  unfold checkSourceValue
  rw [hig, hdyn, hty]
  simp only [Bool.false_eq_true, if_false]
  rw [hres]
  show checkResolved ctx m trav = _
  unfold checkResolved
  rw [if_neg hself]
  cases hsc : ctx.scc with
  | none => rfl
  | some f => exact if_pos (hscc f hsc)

/-- C2 amended: provided `allowUnsafeDynamicCyclicDependency` is not enabled,
for every graph with at least one qualifying cycle reachable within
`maxDepth` from a checked import (checked from a fresh traversal state, with
the guard chain passing), the check reports a route realizing a qualifying
cycle with the minimum number of hops among all qualifying cycles from that
checked declaration — hops counted as qualifying edges from the resolved
target back to the linted file, the reported route carrying one entry per
hop except the closing one. -/
theorem c2_amended_shortest_route (ctx : Ctx) (v : String) (importer : Importer)
    (m : Module) (h : Nat)
    (hallow : ctx.opts.allowUnsafeDynamicCyclicDependency = false)
    (hig : ignoreModule ctx v = false)
    (hdyn : dynamicImportSkipped ctx.opts importer = false)
    (hty : typeOnlyImportSkipped importer = false)
    (hres : exportMapGet ctx v = some m)
    (hself : m.path ≠ ctx.filename)
    (hscc : ∀ f, ctx.scc = some f → f ctx.filename = f m.path)
    (hcyc : QCycle ctx [] m.path h)
    (hdep : ∀ dmax, ctx.opts.maxDepth = some dmax → h ≤ dmax) :
    ∃ r trav', checkSourceValue ctx v importer [] = (some r, trav') ∧
      QCycle ctx [] m.path (r.length + 1) ∧
      ∀ h', QCycle ctx [] m.path h' → r.length + 1 ≤ h' := by
  classical
  have hex : ∃ n, QCycle ctx [] m.path n := ⟨h, hcyc⟩
  have hfound := Nat.find_spec hex
  have hmin : ∀ h' < Nat.find hex, ¬ QCycle ctx [] m.path h' :=
    fun h' hh' => Nat.find_min hex hh'
  have hle : Nat.find hex ≤ h := Nat.find_le hcyc
  have hge1 : 1 ≤ Nat.find hex := by
    obtain ⟨k, q, hk, _, _⟩ := hfound
    omega
  have hgate : Nat.find hex - 1 = 0 ∨
      depthLt (Nat.find hex - 1) ctx.opts.maxDepth = true := by
    cases hmd : ctx.opts.maxDepth with
    | none => exact Or.inr rfl
    | some dmax =>
      refine Or.inr ?_
      have := hdep dmax hmd
      simp only [depthLt, decide_eq_true_eq]
      omega
  obtain ⟨r, trav', hrun, hlen⟩ := bfsLoop_complete hallow hfound hmin hgate
    (potential ctx [{ target := m.path, route := [] }] []) _ _ (le_refl _)
    (bfsInv_init hself)
  refine ⟨r, trav', ?_, ?_, ?_⟩
  · rw [check_reduces hig hdyn hty hres hself hscc []]
    exact hrun
  · rw [hlen]
    exact hfound
  · intro h' hc'
    rw [hlen]
    by_contra hlt
    exact hmin h' (by omega) hc'

theorem c2_witness :
    (ctxAB defaultOpts).opts.allowUnsafeDynamicCyclicDependency = false ∧
    QCycle (ctxAB defaultOpts) [] modAB_b.path 1 ∧
    (∃ r trav',
      checkSourceValue (ctxAB defaultOpts) "./b" importerStatic [] = (some r, trav') ∧
      QCycle (ctxAB defaultOpts) [] modAB_b.path (r.length + 1) ∧
      ∀ h', QCycle (ctxAB defaultOpts) [] modAB_b.path h' → r.length + 1 ≤ h') := by
  have hcyc : QCycle (ctxAB defaultOpts) [] modAB_b.path 1 :=
    ⟨0, "b", rfl, .refl "b" (by decide) (by simp), ⟨modAB_b, rfl, by decide⟩⟩
  refine ⟨rfl, hcyc, ?_⟩
  exact c2_amended_shortest_route (ctxAB defaultOpts) "./b" importerStatic modAB_b 1
    rfl rfl rfl rfl rfl (by decide) (fun f hf => by cases hf) hcyc
    (fun dmax hd => by cases hd)

/-- C3 amended: for a finite positive `maxDepth` and
`allowUnsafeDynamicCyclicDependency` not enabled (checked from a fresh
traversal state, with the guard chain passing): a cycle whose minimal
qualifying route requires exactly `maxDepth` hops — hops counted as
qualifying edges from the resolved import target back to the linted file —
is reported, and when every qualifying route requires at least `maxDepth + 1`
hops, nothing is reported. -/
theorem c3_amended_depth_boundary (ctx : Ctx) (v : String) (importer : Importer)
    (m : Module) (dmax : Nat)
    (hallow : ctx.opts.allowUnsafeDynamicCyclicDependency = false)
    (hig : ignoreModule ctx v = false)
    (hdyn : dynamicImportSkipped ctx.opts importer = false)
    (hty : typeOnlyImportSkipped importer = false)
    (hres : exportMapGet ctx v = some m)
    (hself : m.path ≠ ctx.filename)
    (hscc : ∀ f, ctx.scc = some f → f ctx.filename = f m.path)
    (hmax : ctx.opts.maxDepth = some dmax) (hd1 : 1 ≤ dmax) :
    ((QCycle ctx [] m.path dmax ∧ ∀ h' < dmax, ¬ QCycle ctx [] m.path h') →
      ∃ r trav', checkSourceValue ctx v importer [] = (some r, trav') ∧
        r.length + 1 = dmax) ∧
    ((QCycle ctx [] m.path (dmax + 1) ∧ ∀ h' ≤ dmax, ¬ QCycle ctx [] m.path h') →
      (checkSourceValue ctx v importer []).1 = none) := by
  constructor
  · rintro ⟨hcyc, hmin⟩
    have hgate : dmax - 1 = 0 ∨ depthLt (dmax - 1) ctx.opts.maxDepth = true := by
      refine Or.inr ?_
      rw [hmax]
      simp only [depthLt, decide_eq_true_eq]
      omega
    obtain ⟨r, trav', hrun, hlen⟩ := bfsLoop_complete hallow hcyc hmin hgate
      (potential ctx [{ target := m.path, route := [] }] []) _ _ (le_refl _)
      (bfsInv_init hself)
    refine ⟨r, trav', ?_, hlen⟩
    rw [check_reduces hig hdyn hty hres hself hscc []]
    exact hrun
  · rintro ⟨_, hnone⟩
    cases hcheck : (checkSourceValue ctx v importer []) with
    | mk o travout =>
      cases o with
      | none => rfl
      | some r =>
        exfalso
        obtain ⟨m', hres', _, ⟨q, hq, hqe⟩, hbound⟩ := check_sound hcheck
        rw [hres] at hres'
        injection hres' with hres'
        subst hres'
        have hcyc' : QCycle ctx [] m.path (r.length + 1) :=
          ⟨r.length, q, rfl, hq, hqe⟩
        have hle : r.length + 1 ≤ dmax := by
          rcases hbound with h0 | hlt
          · omega
          · rw [hmax] at hlt
            simp only [depthLt, decide_eq_true_eq] at hlt
            omega
        exact hnone (r.length + 1) hle hcyc'

theorem c3_witness :
    ((1 : Nat) ≤ 1) ∧
    (∃ r trav',
      checkSourceValue (ctxAB (optsDepth 1)) "./b" importerStatic [] = (some r, trav') ∧
      r.length + 1 = 1) ∧
    (checkSourceValue (ctxTri (optsDepth 1)) "./b" importerStatic []).1 = none := by
  have hcycAB : QCycle (ctxAB (optsDepth 1)) [] modAB_b.path 1 :=
    ⟨0, "b", rfl, .refl "b" (by decide) (by simp), ⟨modAB_b, rfl, by decide⟩⟩
  have hminAB : ∀ h' < 1, ¬ QCycle (ctxAB (optsDepth 1)) [] modAB_b.path h' := by
    intro h' hh'
    rintro ⟨k, q, hk, _, _⟩
    omega
  have hcycTri : QCycle (ctxTri (optsDepth 1)) [] modTri_b.path 2 := by
    refine ⟨1, "c", rfl, ?_, ⟨modTri_c, rfl, by decide⟩⟩
    exact .step "b" "c" "c" 0 (by decide) (by simp) ⟨modTri_b, rfl, by decide⟩
      (.refl "c" (by decide) (by simp))
  have hminTri : ∀ h' ≤ 1, ¬ QCycle (ctxTri (optsDepth 1)) [] modTri_b.path h' := by
    intro h' hh'
    rintro ⟨k, q, hk, hre, hqe⟩
    have hk0 : k = 0 := by omega
    subst hk0
    have hq : modTri_b.path = q := hre.zero_eq
    have hfind : (ctxTri (optsDepth 1)).graph.find q = some modTri_b := by
      rw [← hq]
      rfl
    have hedge := qedge_elim hqe hfind
    exact absurd hedge (by decide)
  refine ⟨le_refl 1, ?_, ?_⟩
  · exact (c3_amended_depth_boundary (ctxAB (optsDepth 1)) "./b" importerStatic
      modAB_b 1 rfl rfl rfl rfl rfl (by decide) (fun f hf => by cases hf) rfl
      (le_refl 1)).1 ⟨hcycAB, hminAB⟩
  · exact (c3_amended_depth_boundary (ctxTri (optsDepth 1)) "./b" importerStatic
      modTri_b 1 rfl rfl rfl rfl rfl (by decide) (fun f hf => by cases hf) rfl
      (le_refl 1)).2 ⟨hcycTri, hminTri⟩

end NoCycle
